import Mathlib

/-!
Verification of the transcript segmentation core of `fcpxml-cutlass`
(`scripts/segments.py`): parser, break scorer, segment builder and
highlight selector, shallowly embedded in Lean 4.

Python strings are modelled as `List Char`; Python `int` as `Int`;
Python `float` as `ℚ` (every constant appearing in the scoring code is a
dyadic rational, and the one non-dyadic threshold `0.2` is only ever
compared against sums of multiples of `1/2`, so exact rational
arithmetic agrees with IEEE double arithmetic on all reachable values).
`random.random()` draws are modelled as an explicit stream `Nat → ℚ`
with a cursor, consumed in exactly the order the Python code draws.
Python `for` loops over index ranges are embedded as structurally
recursive functions whose fuel argument is instantiated with the exact
iteration count of the corresponding `range`, so the Lean functions
compute the same values and remain kernel-reducible.
-/

namespace Cutlass

/-- Python strings, modelled as lists of characters. -/
abbrev Str := List Char

/-- Python `str.strip()` whitespace set (ASCII part): space, tab, LF, CR, FF, VT. -/
def isPySpace (c : Char) : Bool :=
  c = ' ' || c = '\t' || c = '\n' || c = '\r' || c = '\x0b' || c = '\x0c'

/-- Python `str.lstrip()`. -/
def lstripWs (s : Str) : Str := s.dropWhile isPySpace

/-- Python `str.rstrip()`. -/
def rstripWs (s : Str) : Str := (s.reverse.dropWhile isPySpace).reverse

/-- Python `str.strip()`. -/
def stripWs (s : Str) : Str := rstripWs (lstripWs s)

/-- Python `str.lower()` (ASCII part; all vocabulary terms are ASCII). -/
def lowerStr (s : Str) : Str := s.map Char.toLower

/-- Whether `pre` is a prefix of `s` (Python `str.startswith`). -/
def hasPrefixCh (s pre : Str) : Bool :=
  match s, pre with
  | _, [] => true
  | [], _ :: _ => false
  | a :: s', b :: pre' => a = b && hasPrefixCh s' pre'

/-- Whether `suf` is a suffix of `s` (Python `str.endswith`). -/
def endsWithCh (s suf : Str) : Bool := hasPrefixCh s.reverse suf.reverse

/-- Python substring containment `needle in hay`. -/
def containsSub (hay needle : Str) : Bool :=
  match hay with
  | [] => hasPrefixCh [] needle
  | _ :: rest => hasPrefixCh hay needle || containsSub rest needle

/-- Python `'\t'.split` on a single character: split at every tab, keeping empty fields. -/
def splitTabGo (s : Str) (acc : Str) : List Str :=
  match s with
  | [] => [acc.reverse]
  | c :: rest => if c = '\t' then acc.reverse :: splitTabGo rest [] else splitTabGo rest (c :: acc)

/-- Python `s.split('\t')`. -/
def splitTab (s : Str) : List Str := splitTabGo s []

/-- Python `sep.join(parts)`. -/
def joinSep (sep : Str) : List Str → Str
  | [] => []
  | [x] => x
  | x :: y :: rest => x ++ sep ++ joinSep sep (y :: rest)

/-- A word character for `re` word boundaries `\b` (ASCII): `[A-Za-z0-9_]`. -/
def isWordChar (c : Char) : Bool := c.isAlphanum || c = '_'

/-- One line from the transcript file (dataclass `TranscriptLine`). -/
structure TranscriptLine where
  line_number : Nat
  timestamp : Str
  seconds : Int
  text : Str
deriving DecidableEq, Repr

/-- A segment of the transcript (dataclass `Segment`). -/
structure Segment where
  start_line : Nat
  end_line : Nat
  start_time : Str
  end_time : Str
  start_seconds : Int
  end_seconds : Int
  duration : Int
  text : Str
deriving DecidableEq, Repr

/-- Default used for out-of-range `List.getD` accesses; every access in the
development is within range. -/
def dfltLine : TranscriptLine := ⟨0, [], 0, []⟩

/-- Default segment for `List.getD` accesses. -/
def dfltSeg : Segment := ⟨0, 0, [], [], 0, 0, 0, []⟩

/-- The segmenter configuration stored by `TranscriptSegmenter.__init__`. -/
structure TranscriptSegmenter where
  min_duration : Int
  max_duration : Int
  long_duration : Int
  target_long_ratio : ℚ
  target_short_ratio : ℚ
deriving DecidableEq, Repr

/-- Configuration error condition. The spec (§7) postulates an
"invalid configuration" condition at construction time; the constructor's
result is wrapped in `Except` so that statement is expressible. -/
inductive ConfigErr where
  | invalid : ConfigErr
deriving DecidableEq, Repr

/-- `TranscriptSegmenter.__init__(min_duration, max_duration, long_duration)`:
the Python constructor only stores its three arguments and the two fixed
target ratios (`0.15`, `0.25`); it contains no validation and no raise. -/
def initSegmenter (mn mx lg : Int) : Except ConfigErr TranscriptSegmenter :=
  Except.ok ⟨mn, mx, lg, 3/20, 1/4⟩

/-- Parse error condition: the second tab field failed `int(...)`. -/
inductive ParseErr where
  | badInt : Str → ParseErr
deriving DecidableEq, Repr

/-- Numeric value of an ASCII digit. -/
def digitVal (c : Char) : Nat := c.toNat - '0'.toNat

/-- Digits of a Python integer literal after the first digit: further digits,
with single underscores permitted between digits (Python 3 `int(str)`). -/
def digitsGo : Str → Nat → Option Nat
  | [], acc => some acc
  | '_' :: c :: rest, acc => if c.isDigit then digitsGo rest (acc * 10 + digitVal c) else none
  | c :: rest, acc => if c.isDigit then digitsGo rest (acc * 10 + digitVal c) else none

/-- Value of a nonempty digit run (first character must be a digit). -/
def digitsVal : Str → Option Nat
  | [] => none
  | c :: rest => if c.isDigit then digitsGo rest (digitVal c) else none

/-- Python `int(s)` on an already-stripped string: optional sign, then digits
(with underscores allowed between digits); anything else raises `ValueError`. -/
def pyInt : Str → Option Int
  | '+' :: rest => (digitsVal rest).map Int.ofNat
  | '-' :: rest => (digitsVal rest).map (fun n => -(n : Int))
  | s => (digitsVal s).map Int.ofNat

/-- The loop body of `TranscriptSegmenter.parse_transcript_file`. Blank lines
are skipped; a line with at least 3 tab fields is parsed (a non-integer second
field raises, aborting the whole invocation); a non-blank line with fewer than
3 tab fields falls through the `if len(parts) >= 3` guard and is skipped. -/
def parse_go : List Str → Nat → Except ParseErr (List TranscriptLine)
  | [], _ => Except.ok []
  | raw :: rest, k =>
    if (stripWs raw).isEmpty then parse_go rest k
    else
      if 3 ≤ (splitTab (stripWs raw)).length then
        match pyInt (stripWs ((splitTab (stripWs raw)).getD 1 [])) with
        | some n =>
          match parse_go rest (k + 1) with
          | Except.ok ls =>
              Except.ok (⟨k, stripWs ((splitTab (stripWs raw)).getD 0 []), n,
                          stripWs (joinSep ['\t'] ((splitTab (stripWs raw)).drop 2))⟩ :: ls)
          | Except.error e => Except.error e
        | none => Except.error (ParseErr.badInt (stripWs ((splitTab (stripWs raw)).getD 1 [])))
      else parse_go rest k

/-- `TranscriptSegmenter.parse_transcript_file`, on the list of raw file lines. -/
def parse_transcript_file (raw : List Str) : Except ParseErr (List TranscriptLine) :=
  parse_go raw 1

/-- `TRANSITION_WORDS['strong']` (weight 3). -/
def strongWords : List Str :=
  ["now", "however", "but", "meanwhile", "furthermore", "moreover",
   "additionally", "therefore", "consequently", "as a result",
   "in conclusion", "to summarize", "moving on", "next up",
   "speaking of", "that said", "on the other hand", "in contrast",
   "alternatively", "instead", "rather", "anyway", "so"].map String.data

/-- `TRANSITION_WORDS['medium']` (weight 2). -/
def mediumWords : List Str :=
  ["also", "and", "plus", "then", "after", "before", "while",
   "during", "since", "because", "if", "when", "where", "why",
   "how", "what", "which", "who", "though", "although", "unless",
   "until", "once", "as", "like"].map String.data

/-- `TRANSITION_WORDS['weak']` (weight 1). -/
def weakWords : List Str :=
  ["the", "this", "that", "these", "those", "here", "there",
   "i", "you", "we", "they", "it", "he", "she"].map String.data

/-- `CONTINUATION_PHRASES` (penalised, weight -2). -/
def continuationPhrases : List Str :=
  ["for example", "such as", "in other words", "that is",
   "i.e.", "e.g.", "specifically", "particularly", "especially",
   "including", "like this", "as follows", "as well as"].map String.data

/-- The alternation of `re.search(r'\b(right|okay|well|yeah|alright|so)\s*$', text)`. -/
def fillerEndWords : List Str :=
  ["right", "okay", "well", "yeah", "alright", "so"].map String.data

/-- `topic_words` used for the next-line topic-change bonus. -/
def topicBonusWords : List Str :=
  ["app", "feature", "update", "new", "also", "another", "next"].map String.data

/-- `ending_words` used for the completion bonus. -/
def endingWords : List Str :=
  ["now", "too", "well", "right", "there", "here", "done"].map String.data

/-- Number of vocabulary terms present as substrings of `t` (each term counted
once, matching Python `sum(1 for w in ws if w in t)` / per-term `if w in t`). -/
def countPresent (ws : List Str) (t : Str) : Nat :=
  (ws.filter (fun w => containsSub t w)).length

/-- Whether any vocabulary term is present as a substring of `t`. -/
def anyPresent (ws : List Str) (t : Str) : Bool :=
  ws.any (fun w => containsSub t w)

/-- Number of weak words `w` with `text.startswith(w + ' ')`. -/
def countWeakStarts (t : Str) : Nat :=
  (weakWords.filter (fun w => hasPrefixCh t (w ++ [' ']))).length

/-- Semantics of `re.search(r'\b(right|okay|well|yeah|alright|so)\s*$', text)`:
after discarding trailing whitespace, the text ends with one of the filler
words, preceded by a non-word character or the start of the string. -/
def fillerEndMatch (t : Str) : Bool :=
  let u := rstripWs t
  fillerEndWords.any (fun w =>
    endsWithCh u w &&
      (decide (u.length = w.length) ||
        !(isWordChar (u.getD (u.length - w.length - 1) ' '))))

/-- Whether the next line exists and its lowercased text contains a topic word. -/
def topicNextBonus : Option TranscriptLine → Bool
  | none => false
  | some nl => anyPresent topicBonusWords (lowerStr nl.text)

/-- Whether `text.strip().endswith(' ' + w)` for some completion word `w`. -/
def endsWithCompletion (t : Str) : Bool :=
  endingWords.any (fun w => endsWithCh (stripWs t) (' ' :: w))

/-- `TranscriptSegmenter.calculate_break_score(line, next_line)`: the break
scorer, accumulating the seven contributions in source order. -/
def calculate_break_score (line : TranscriptLine) (next_line : Option TranscriptLine) : ℚ :=
  let text := lowerStr line.text
  let s1 : ℚ := 3 * countPresent strongWords text
  let s2 := s1 + 2 * countPresent mediumWords text
  let s3 := s2 + 1 * countWeakStarts text
  let s4 := s3 - 2 * countPresent continuationPhrases text
  let s5 := s4 + (if fillerEndMatch text then 3/2 else 0)
  let s6 := s5 + (if topicNextBonus next_line then 1 else 0)
  let s7 := s6 + (if endsWithCompletion text then 1/2 else 0)
  s7

/-- `announcement_words` term→weight table. -/
def announcementWords : List (Str × ℚ) :=
  [("new", 2), ("biggest", 3), ("major", 2), ("announced", 2), ("reveal", 2),
   ("introduce", 2), ("launching", 2), ("officially", 2), ("upgrade", 3/2),
   ("feature", 3/2), ("update", 1), ("redesign", 2), ("overhaul", 5/2)].map
    (fun p => (p.1.data, p.2))

/-- `tech_words` term→weight table. -/
def techWords : List (Str × ℚ) :=
  [("liquid glass", 3), ("ai", 2), ("intelligence", 2), ("camera", 2),
   ("siri", 3/2), ("safari", 3/2), ("photos", 3/2), ("facetime", 3/2),
   ("messages", 3/2), ("design language", 5/2), ("vision os", 2)].map
    (fun p => (p.1.data, p.2))

/-- `excitement_words` term→weight table. -/
def excitementWords : List (Str × ℚ) :=
  [("amazing", 3/2), ("incredible", 2), ("cool", 1), ("awesome", 3/2),
   ("revolutionary", 3), ("game changer", 5/2), ("breakthrough", 5/2),
   ("super", 1), ("really", 1/2), ("pretty", 1/2)].map
    (fun p => (p.1.data, p.2))

/-- `practical_words` term→weight table. -/
def practicalWords : List (Str × ℚ) :=
  [("how to", 2), ("you can", 1), ("free", 3/2), ("right now", 3/2),
   ("warning", 2), ("risk", 3/2), ("beta", 1), ("install", 1)].map
    (fun p => (p.1.data, p.2))

/-- Sum of the weights of all table terms present as substrings of `t`. -/
def sumWeights (d : List (Str × ℚ)) (t : Str) : ℚ :=
  (d.map (fun p => if containsSub t p.1 then p.2 else 0)).sum

/-- `TranscriptSegmenter.analyze_segment_importance(segment)`. -/
def analyze_segment_importance (seg : Segment) : ℚ :=
  let text := lowerStr seg.text
  let s1 := sumWeights announcementWords text + sumWeights techWords text +
            sumWeights excitementWords text + sumWeights practicalWords text
  let s2 := s1 + (if seg.start_seconds < 60 then 1
                  else if seg.start_seconds < 180 then 1/2 else 0)
  let s3 := s2 + (if 10 ≤ seg.duration ∧ seg.duration ≤ 25 then 1/2 else 0)
  let s4 := s3 - (if seg.duration < 6 then 1 else 0)
  s4

/-- One insertion step of the stable descending sort on `(score, segment)`
pairs: walk past strictly greater scores, insert before the first score that
is less than or equal (so equal scores keep their original relative order),
matching Python's stable `list.sort(key=lambda x: x[0], reverse=True)`. -/
def insertDesc (x : ℚ × Segment) : List (ℚ × Segment) → List (ℚ × Segment)
  | [] => [x]
  | y :: ys => if x.1 < y.1 then y :: insertDesc x ys else x :: y :: ys

/-- Stable sort of scored segments by descending score. -/
def sortScoredDesc : List (ℚ × Segment) → List (ℚ × Segment)
  | [] => []
  | x :: xs => insertDesc x (sortScoredDesc xs)

/-- One insertion step of the stable ascending sort by `start_seconds`,
matching Python's stable `list.sort(key=lambda x: x.start_seconds)`. -/
def insertStart (x : Segment) : List Segment → List Segment
  | [] => [x]
  | y :: ys => if y.start_seconds < x.start_seconds then y :: insertStart x ys
               else x :: y :: ys

/-- Stable sort of segments by ascending `start_seconds`. -/
def sortByStart : List Segment → List Segment
  | [] => []
  | x :: xs => insertStart x (sortByStart xs)

/-- One greedy admission pass of `generate_highlight_reels`: admit the segment
when the item count so far is below `capN`, the cumulative admitted duration
so far is below `capD`, and the score strictly exceeds `thr`. -/
def greedyGo (capN : Nat) (capD : Int) (thr : ℚ) :
    List (ℚ × Segment) → Nat → Int → List Segment
  | [], _, _ => []
  | p :: rest, n, d =>
    if n < capN ∧ d < capD ∧ thr < p.1 then
      p.2 :: greedyGo capN capD thr rest (n + 1) (d + p.2.duration)
    else greedyGo capN capD thr rest n d

/-- The three highlight lists returned by `generate_highlight_reels`. -/
structure Reels where
  quick : List Segment
  extended : List Segment
  comprehensive : List Segment
deriving DecidableEq, Repr

/-- `TranscriptSegmenter.generate_highlight_reels(segments)`. -/
def generate_highlight_reels (segments : List Segment) : Reels :=
  let scored := segments.map (fun s => (analyze_segment_importance s, s))
  let ss := sortScoredDesc scored
  { quick := sortByStart (greedyGo 8 120 1 ss 0 0)
    extended := sortByStart (greedyGo 12 180 (1/2) ss 0 0)
    comprehensive := sortByStart (greedyGo 20 240 (1/5) ss 0 0) }

/-- `topic_keywords` of `assess_text_complexity`. -/
def topicKeywords : List Str :=
  ["feature", "app", "update", "new", "design", "interface", "camera", "photos",
   "messages", "safari", "settings", "intelligence", "siri", "facetime"].map
    String.data

/-- `explanation_phrases` of `assess_text_complexity`. -/
def explanationPhrases : List Str :=
  ["basically", "for example", "what this means", "how it works", "the idea is",
   "so what happens", "this allows", "you can now", "the way this works"].map
    String.data

/-- The lowercased space-joined text of `lines[s : e+1]`
(`' '.join(line.text for line in lines[start_idx:end_idx + 1]).lower()`). -/
def spanText (lines : List TranscriptLine) (s e : Nat) : Str :=
  lowerStr (joinSep [' '] (((lines.drop s).take (e + 1 - s)).map (fun l => l.text)))

/-- `TranscriptSegmenter.assess_text_complexity(lines, start_idx, end_idx)`,
accumulating the three contributions in source order. -/
def assess_text_complexity (lines : List TranscriptLine) (s e : Nat) : ℚ :=
  let text := spanText lines s e
  let tc := countPresent topicKeywords text
  let s1 : ℚ := if 3 ≤ tc then 2 else if 1 ≤ tc then 1 else 0
  let s2 := s1 + (if anyPresent explanationPhrases text then 3/2 else 0)
  let s3 := s2 - (if 4 < countPresent strongWords text then 1 else 0)
  s3

/-- Break score of candidate index `i`:
`calculate_break_score(lines[i], lines[i+1] if i+1 < len(lines) else None)`. -/
def scoreAt (lines : List TranscriptLine) (i : Nat) : ℚ :=
  calculate_break_score (lines.getD i dfltLine) (lines.get? (i + 1))

/-- First index `j ≥ i` with `p j`, scanning the `fuel` indices `i, i+1, …`;
the embedding of `for i in range(i, i+fuel)` with an early `break`.
Call sites instantiate `fuel` with the exact Python range length. -/
def findIdx2 (p : Nat → Bool) : Nat → Nat → Option Nat
  | _, 0 => none
  | i, fuel + 1 => if p i then some i else findIdx2 p (i + 1) fuel

/-- The minimum-duration boundary scan of `create_segments` (lines 356-362):
the first index `i ≥ cur` whose duration from `startSec` reaches `tmin`, or
the last index when the `for` loop falls through to its `else` clause. -/
def findMinEnd (lines : List TranscriptLine) (cur : Nat) (startSec tmin : Int) : Nat :=
  match findIdx2 (fun i => decide (tmin ≤ (lines.getD i dfltLine).seconds - startSec))
      cur (lines.length - cur) with
  | some m => m
  | none => lines.length - 1

/-- The maximum-duration boundary scan of `create_segments` (lines 365-370):
starting at `i`, return `i' - 1` at the first index `i'` whose duration
exceeds `tmax`, else keep extending; `acc` is the running `max_end_idx`
(initialised to `current_start` at line 353, only returned if the scan runs
zero iterations). -/
def findMaxEndGo (lines : List TranscriptLine) (startSec tmax : Int) :
    Nat → Int → Nat → Int
  | _, acc, 0 => acc
  | i, _, fuel + 1 =>
    if tmax < (lines.getD i dfltLine).seconds - startSec then (i : Int) - 1
    else findMaxEndGo lines startSec tmax (i + 1) (i : Int) fuel

/-- The maximum-duration boundary from `minEnd`, with the Python initial value
`max_end_idx = current_start`. -/
def findMaxEnd (lines : List TranscriptLine) (startSec tmax : Int)
    (minEnd cur : Nat) : Int :=
  findMaxEndGo lines startSec tmax minEnd (cur : Int) (lines.length - minEnd)

/-- The loop of `find_best_break_in_range`: track the best index `bi` and best
score `bs` (initialised to `-1.0`), updating only on strictly greater score. -/
def bestBreakGo (lines : List TranscriptLine) : Nat → Nat → ℚ → Nat → Nat
  | _, bi, _, 0 => bi
  | i, bi, bs, fuel + 1 =>
    if bs < scoreAt lines i then bestBreakGo lines (i + 1) i (scoreAt lines i) fuel
    else bestBreakGo lines (i + 1) bi bs fuel

/-- `TranscriptSegmenter.find_best_break_in_range(lines, start_idx, min_end_idx,
max_end_idx)`. The `start_idx` parameter is unused, as in the source. The
Python loop runs over `range(min_end_idx, min(max_end_idx + 1, len(lines)))`. -/
def find_best_break_in_range (lines : List TranscriptLine)
    (startIdx minEnd maxEnd : Nat) : Nat :=
  let _ := startIdx
  bestBreakGo lines minEnd minEnd (-1) (min (maxEnd + 1) lines.length - minEnd)

/-- The end-index selection of `create_segments` (lines 386-392): search for
the best break when `max_end_idx > min_end_idx`, else take `min_end_idx`;
then clamp to the last valid index. -/
def chooseEnd (lines : List TranscriptLine) (cur minEnd : Nat) (maxEnd : Int) : Nat :=
  let e0 := if (minEnd : Int) < maxEnd
            then find_best_break_in_range lines cur minEnd maxEnd.toNat
            else minEnd
  min e0 (lines.length - 1)

/-- The whole end-index computation for one segment starting at `cur`, given
the drawn targets: minimum and maximum boundaries, the long-segment
suitability gate (lines 372-383, which recomputes the maximum boundary with
the default `max_duration` when the long content score is below 1.0), and the
final boundary selection. -/
def segEndIdx (cfg : TranscriptSegmenter) (lines : List TranscriptLine)
    (cur : Nat) (shouldLong : Bool) (tmin tmax : Int) : Nat :=
  let s := (lines.getD cur dfltLine).seconds
  let minEnd := findMinEnd lines cur s tmin
  let maxEnd0 := findMaxEnd lines s tmax minEnd cur
  let maxEnd :=
    if shouldLong = true ∧ (minEnd : Int) < maxEnd0 ∧
        assess_text_complexity lines cur maxEnd0.toNat < 1
    then findMaxEnd lines s cfg.max_duration minEnd cur
    else maxEnd0
  chooseEnd lines cur minEnd maxEnd

/-- The random source: a stream of `random.random()` results and a cursor.
Identical stream and cursor reproduce identical draws, modelling
`random.seed(seed)` fixing the generator state. -/
structure Rng where
  f : Nat → ℚ
  k : Nat

/-- Draw one value from the stream. -/
def Rng.next (r : Rng) : ℚ × Rng := (r.f r.k, ⟨r.f, r.k + 1⟩)

/-- `TranscriptSegmenter.should_create_long_segment(segments_created,
total_estimated)`, reading `self.temp_segments` (the segments built so far):
consumes one draw unless `total_estimated == 0`. -/
def should_create_long_segment (cfg : TranscriptSegmenter) (temp : List Segment)
    (created : Nat) (total : Int) (r : Rng) : Bool × Rng :=
  if total = 0 then (false, r)
  else
    let longCount := (temp.filter (fun s => decide (22 < s.duration))).length
    let ratio : ℚ := (longCount : ℚ) / ((max 1 created : Nat) : ℚ)
    let (x, r') := r.next
    if cfg.target_long_ratio ≤ ratio then (x < 1/10, r')
    else if ratio < cfg.target_long_ratio * (1/2) then (x < 6/10, r')
    else (x < 3/10, r')

/-- The target-duration policy of one `create_segments` iteration (lines
334-349): decide whether to go long (one draw), and if not, draw again to
choose between a short window `(6, 11)` and the configured medium window. -/
def drawTargets (cfg : TranscriptSegmenter) (segs : List Segment) (total : Int)
    (r : Rng) : Bool × Int × Int × Rng :=
  let p := should_create_long_segment cfg segs segs.length total r
  if p.1 then (true, 22, cfg.long_duration, p.2)
  else
    let q := p.2.next
    if q.1 < 3/10 then (false, 6, 11, q.2)
    else (false, cfg.min_duration, cfg.max_duration, q.2)

/-- `estimated_segments = max(1, total_duration // 25)` with
`total_duration = lines[-1].seconds - lines[0].seconds if lines else 0`;
Python `//` is floor division. -/
def estimatedSegments (lines : List TranscriptLine) : Int :=
  max 1 ((if lines.isEmpty then 0
          else (lines.getLastD dfltLine).seconds - (lines.headD dfltLine).seconds).fdiv 25)

/-- The segment built for the span `[cur, e]` (lines 394-410). -/
def mkSeg (lines : List TranscriptLine) (cur e : Nat) : Segment :=
  let a := lines.getD cur dfltLine
  let b := lines.getD e dfltLine
  { start_line := a.line_number
    end_line := b.line_number
    start_time := a.timestamp
    end_time := b.timestamp
    start_seconds := a.seconds
    end_seconds := b.seconds
    duration := b.seconds - a.seconds
    text := joinSep [' '] (((lines.drop cur).take (e + 1 - cur)).map (fun l => l.text)) }

/-- One loop iteration's end index and successor random state. -/
def stepOf (cfg : TranscriptSegmenter) (lines : List TranscriptLine) (cur : Nat)
    (segs : List Segment) (r : Rng) : Nat × Rng :=
  let t := drawTargets cfg segs (estimatedSegments lines) r
  (segEndIdx cfg lines cur t.1 t.2.1 t.2.2.1, t.2.2.2)

lemma bestBreakGo_ge (lines : List TranscriptLine) :
    ∀ (fuel i bi : Nat) (bs : ℚ) (m : Nat), m ≤ bi → m ≤ i →
      m ≤ bestBreakGo lines i bi bs fuel := by
  intro fuel
  induction fuel with
  | zero => intro i bi bs m h1 _; simpa [bestBreakGo] using h1
  | succ fuel ih =>
    intro i bi bs m h1 h2
    rw [bestBreakGo]
    split
    · exact ih (i + 1) i _ m h2 (by omega)
    · exact ih (i + 1) bi bs m h1 (by omega)

lemma find_best_break_in_range_ge (lines : List TranscriptLine)
    (startIdx minEnd maxEnd : Nat) :
    minEnd ≤ find_best_break_in_range lines startIdx minEnd maxEnd :=
  bestBreakGo_ge lines _ minEnd minEnd (-1) minEnd le_rfl le_rfl

lemma findIdx2_some_ge (p : Nat → Bool) :
    ∀ (fuel i m : Nat), findIdx2 p i fuel = some m → i ≤ m := by
  intro fuel
  induction fuel with
  | zero => intro i m h; simp [findIdx2] at h
  | succ fuel ih =>
    intro i m h
    rw [findIdx2] at h
    split at h
    · injection h with h'
      omega
    · exact le_trans (by omega) (ih (i + 1) m h)

lemma findMinEnd_ge (lines : List TranscriptLine) (cur : Nat) (startSec tmin : Int)
    (h : cur < lines.length) : cur ≤ findMinEnd lines cur startSec tmin := by
  unfold findMinEnd
  split
  · exact findIdx2_some_ge _ _ _ _ (by assumption)
  · omega

lemma chooseEnd_ge (lines : List TranscriptLine) (cur minEnd : Nat) (maxEnd : Int)
    (h1 : cur ≤ minEnd) (h2 : cur < lines.length) :
    cur ≤ chooseEnd lines cur minEnd maxEnd := by
  unfold chooseEnd
  refine le_min ?_ (by omega)
  split
  · exact le_trans h1 (find_best_break_in_range_ge lines cur minEnd _)
  · exact h1

lemma chooseEnd_le (lines : List TranscriptLine) (cur minEnd : Nat) (maxEnd : Int) :
    chooseEnd lines cur minEnd maxEnd ≤ lines.length - 1 :=
  Nat.min_le_right _ _

lemma segEndIdx_ge (cfg : TranscriptSegmenter) (lines : List TranscriptLine)
    (cur : Nat) (shouldLong : Bool) (tmin tmax : Int) (h : cur < lines.length) :
    cur ≤ segEndIdx cfg lines cur shouldLong tmin tmax := by
  unfold segEndIdx
  exact chooseEnd_ge lines cur _ _ (findMinEnd_ge lines cur _ _ h) h

lemma segEndIdx_le (cfg : TranscriptSegmenter) (lines : List TranscriptLine)
    (cur : Nat) (shouldLong : Bool) (tmin tmax : Int) :
    segEndIdx cfg lines cur shouldLong tmin tmax ≤ lines.length - 1 :=
  chooseEnd_le lines cur _ _

lemma stepOf_fst_ge (cfg : TranscriptSegmenter) (lines : List TranscriptLine)
    (cur : Nat) (segs : List Segment) (r : Rng) (h : cur < lines.length) :
    cur ≤ (stepOf cfg lines cur segs r).1 :=
  segEndIdx_ge cfg lines cur _ _ _ h

lemma stepOf_fst_le (cfg : TranscriptSegmenter) (lines : List TranscriptLine)
    (cur : Nat) (segs : List Segment) (r : Rng) :
    (stepOf cfg lines cur segs r).1 ≤ lines.length - 1 :=
  segEndIdx_le cfg lines cur _ _ _

/-- The `while current_start < len(lines)` loop of `create_segments`
(lines 330-414): `segs` is the accumulated segment list (also read by the
long-segment policy through `self.temp_segments`). -/
def createSegmentsGo (cfg : TranscriptSegmenter) (lines : List TranscriptLine)
    (cur : Nat) (segs : List Segment) (r : Rng) : List Segment :=
  if h : cur < lines.length then
    createSegmentsGo cfg lines ((stepOf cfg lines cur segs r).1 + 1)
      (segs ++ [mkSeg lines cur (stepOf cfg lines cur segs r).1])
      (stepOf cfg lines cur segs r).2
  else segs
termination_by lines.length - cur
decreasing_by
  have := stepOf_fst_ge cfg lines cur segs r h
  omega

/-- `TranscriptSegmenter.create_segments(lines)`, with the random source made
explicit. -/
def create_segments (cfg : TranscriptSegmenter) (lines : List TranscriptLine)
    (r : Rng) : List Segment :=
  createSegmentsGo cfg lines 0 [] r

/-- The default configuration (`TranscriptSegmenter()` with argparse defaults). -/
def cfg0 : TranscriptSegmenter := ⟨9, 18, 30, 3/20, 1/4⟩

/-- Claim C7 counterexample: constructing the segmenter with
`min_duration = 18 > 9 = max_duration` succeeds and stores the degenerate
configuration; no invalid-configuration error is raised at construction
time, contrary to the claim. -/
theorem initSegmenter_counterexample :
    initSegmenter 18 9 30 = Except.ok ⟨18, 9, 30, 3/20, 1/4⟩ ∧ (9 : Int) < 18 :=
  ⟨rfl, by norm_num⟩

/-- Claim C7 (amended): construction never fails; `__init__` stores the three
durations and the fixed target ratios without any validation, for every
configuration including degenerate ones. -/
theorem initSegmenter_total (mn mx lg : Int) :
    initSegmenter mn mx lg = Except.ok ⟨mn, mx, lg, 3/20, 1/4⟩ := rfl

/-- Claim C6 counterexample: a non-blank record with only 2 tab-separated
fields is silently dropped — the invocation succeeds with an empty result
instead of surfacing a malformed-record error. -/
theorem parse_short_record_counterexample :
    (stripWs ("1:00\t60").data).isEmpty = false
    ∧ (splitTab (stripWs ("1:00\t60").data)).length = 2
    ∧ parse_transcript_file [("1:00\t60").data] = Except.ok [] :=
  ⟨rfl, rfl, rfl⟩

/-- Claim C6 (amended): a non-blank record with at least 3 tab-separated
fields whose second field does not parse as an integer surfaces a
malformed-record error to the caller for that invocation; a non-blank record
with fewer than 3 tab-separated fields is silently skipped, not surfaced. -/
theorem parse_malformed_amended :
    (∀ (raw : List Str) (k : Nat),
       (∃ l ∈ raw, (stripWs l).isEmpty = false ∧ 3 ≤ (splitTab (stripWs l)).length ∧
          pyInt (stripWs ((splitTab (stripWs l)).getD 1 [])) = none) →
       ∃ e, parse_go raw k = Except.error e)
    ∧ (∀ (l : Str) (rest : List Str) (k : Nat),
       (stripWs l).isEmpty = false → (splitTab (stripWs l)).length < 3 →
       parse_go (l :: rest) k = parse_go rest k) := by
  constructor
  · intro raw
    induction raw with
    | nil => intro k h; simp at h
    | cons a rest ih =>
      intro k h
      obtain ⟨l, hl, hb, h3, hint⟩ := h
      rcases List.mem_cons.mp hl with rfl | hl'
      · rw [parse_go, if_neg (by simp [hb]), if_pos h3, hint]
        exact ⟨_, rfl⟩
      · rw [parse_go]
        by_cases hab : (stripWs a).isEmpty
        · rw [if_pos hab]; exact ih k ⟨l, hl', hb, h3, hint⟩
        · rw [if_neg hab]
          by_cases ha3 : 3 ≤ (splitTab (stripWs a)).length
          · rw [if_pos ha3]
            cases haint : pyInt (stripWs ((splitTab (stripWs a)).getD 1 [])) with
            | none => exact ⟨_, rfl⟩
            | some n =>
              obtain ⟨e, he⟩ := ih (k + 1) ⟨l, hl', hb, h3, hint⟩
              rw [he]
              exact ⟨e, rfl⟩
          · rw [if_neg ha3]; exact ih k ⟨l, hl', hb, h3, hint⟩
  · intro l rest k h1 h2
    rw [parse_go, if_neg (by simp [h1]), if_neg (by omega)]

/-- Witness for the amended claim C6: an invocation containing a record with a
non-integer seconds field errors; an invocation whose head is a non-blank
2-field record parses exactly as if that record were absent. -/
theorem parse_malformed_amended_witness :
    (∃ e, parse_go [("1:00\tabc\thello").data] 1 = Except.error e)
    ∧ parse_go [("1:00\t60").data, ("0:05\t5\tok").data] 1 =
        parse_go [("0:05\t5\tok").data] 1 :=
  ⟨parse_malformed_amended.1 _ 1 ⟨("1:00\tabc\thello").data, by decide⟩,
   parse_malformed_amended.2 _ _ 1 (by decide) (by decide)⟩

/-- Claim C8: segmentation is a pure function of the line sequence and the
random source; identical input and identical random stream (the state fixed
by `random.seed`) give identical segment lists. The stream is the only input
beyond the lines and configuration. -/
theorem create_segments_deterministic (cfg : TranscriptSegmenter)
    (lines : List TranscriptLine) (f g : Nat → ℚ) (k : Nat)
    (h : ∀ n, f n = g n) :
    create_segments cfg lines ⟨f, k⟩ = create_segments cfg lines ⟨g, k⟩ := by
  have hfg : f = g := funext h
  subst hfg
  rfl

/-- Witness for claim C8 at a concrete input and two extensionally equal
streams. -/
theorem create_segments_deterministic_witness :
    create_segments cfg0 [⟨1, [], 0, []⟩] ⟨fun _ => 0, 0⟩ =
      create_segments cfg0 [⟨1, [], 0, []⟩] ⟨fun n => 0 * (n : ℚ), 0⟩ :=
  create_segments_deterministic cfg0 [⟨1, [], 0, []⟩] _ _ 0 (fun n => by ring)

/-- Claim C10: each loop iteration of `create_segments` makes progress — the
chosen end index is at least the cursor (so the cursor strictly increases),
the minimum boundary never falls below the cursor, and the break search never
returns an index below the minimum boundary it was given. -/
theorem create_segments_progress (cfg : TranscriptSegmenter)
    (lines : List TranscriptLine) (cur : Nat) (shouldLong : Bool)
    (tmin tmax : Int) (h : cur < lines.length) :
    cur ≤ segEndIdx cfg lines cur shouldLong tmin tmax
    ∧ cur ≤ findMinEnd lines cur (lines.getD cur dfltLine).seconds tmin
    ∧ (∀ startIdx mn mx : Nat, mn ≤ find_best_break_in_range lines startIdx mn mx) :=
  ⟨segEndIdx_ge cfg lines cur shouldLong tmin tmax h,
   findMinEnd_ge lines cur _ tmin h,
   fun startIdx mn mx => find_best_break_in_range_ge lines startIdx mn mx⟩

/-- Witness for claim C10 at a concrete input. -/
theorem create_segments_progress_witness :
    0 ≤ segEndIdx cfg0 [⟨1, [], 0, []⟩] 0 false 9 18
    ∧ 0 ≤ findMinEnd [⟨1, [], 0, []⟩] 0 ([⟨1, [], 0, []⟩].getD 0 dfltLine).seconds 9
    ∧ (∀ startIdx mn mx : Nat,
        mn ≤ find_best_break_in_range [⟨1, [], 0, []⟩] startIdx mn mx) :=
  create_segments_progress cfg0 [⟨1, [], 0, []⟩] 0 false 9 18 (by decide)

lemma bestBreakGo_all_le (lines : List TranscriptLine) :
    ∀ (fuel i bi : Nat) (bs : ℚ),
      (∀ j, i ≤ j → j < i + fuel → scoreAt lines j ≤ bs) →
      bestBreakGo lines i bi bs fuel = bi := by
  intro fuel
  induction fuel with
  | zero => intro i bi bs _; rfl
  | succ fuel ih =>
    intro i bi bs h
    rw [bestBreakGo, if_neg (not_lt.mpr (h i le_rfl (by omega)))]
    exact ih (i + 1) bi bs (fun j hj1 hj2 => h j (by omega) (by omega))

lemma bestBreakGo_argmax (lines : List TranscriptLine) :
    ∀ (fuel i bi : Nat) (bs : ℚ),
      (∃ j, i ≤ j ∧ j < i + fuel ∧ bs < scoreAt lines j) →
      i ≤ bestBreakGo lines i bi bs fuel
      ∧ bestBreakGo lines i bi bs fuel < i + fuel
      ∧ bs < scoreAt lines (bestBreakGo lines i bi bs fuel)
      ∧ (∀ j, i ≤ j → j < i + fuel →
          scoreAt lines j ≤ scoreAt lines (bestBreakGo lines i bi bs fuel))
      ∧ (∀ j, i ≤ j → j < bestBreakGo lines i bi bs fuel →
          scoreAt lines j < scoreAt lines (bestBreakGo lines i bi bs fuel)) := by
  intro fuel
  induction fuel with
  | zero =>
    intro i bi bs h
    obtain ⟨j, h1, h2, _⟩ := h
    omega
  | succ fuel ih =>
    intro i bi bs hex
    rw [bestBreakGo]
    by_cases hb : bs < scoreAt lines i
    · rw [if_pos hb]
      by_cases hex2 : ∃ j, i + 1 ≤ j ∧ j < (i + 1) + fuel ∧ scoreAt lines i < scoreAt lines j
      · obtain ⟨g1, g2, g3, g4, g5⟩ := ih (i + 1) i (scoreAt lines i) hex2
        refine ⟨by omega, by omega, lt_trans hb g3, ?_, ?_⟩
        · intro j hj1 hj2
          rcases eq_or_lt_of_le hj1 with rfl | hj1'
          · exact le_of_lt g3
          · exact g4 j (by omega) (by omega)
        · intro j hj1 hj2
          rcases eq_or_lt_of_le hj1 with rfl | hj1'
          · exact g3
          · exact g5 j (by omega) hj2
      · push_neg at hex2
        have hall : ∀ j, i + 1 ≤ j → j < (i + 1) + fuel →
            scoreAt lines j ≤ scoreAt lines i := fun j hj1 hj2 => hex2 j hj1 hj2
        rw [bestBreakGo_all_le lines fuel (i + 1) i (scoreAt lines i) hall]
        refine ⟨le_rfl, by omega, hb, ?_, by intro j h1 h2; omega⟩
        intro j hj1 hj2
        rcases eq_or_lt_of_le hj1 with rfl | h'
        · exact le_rfl
        · exact hall j (by omega) (by omega)
    · rw [if_neg hb]
      obtain ⟨j, hj1, hj2, hj3⟩ := hex
      have hji : j ≠ i := fun hc => hb (hc ▸ hj3)
      obtain ⟨g1, g2, g3, g4, g5⟩ :=
        ih (i + 1) bi bs ⟨j, by omega, by omega, hj3⟩
      have hi_le : scoreAt lines i ≤ bs := not_lt.mp hb
      refine ⟨by omega, by omega, g3, ?_, ?_⟩
      · intro j' h1 h2
        rcases eq_or_lt_of_le h1 with rfl | h'
        · exact le_trans hi_le (le_of_lt g3)
        · exact g4 j' (by omega) (by omega)
      · intro j' h1 h2
        rcases eq_or_lt_of_le h1 with rfl | h'
        · exact lt_of_le_of_lt hi_le g3
        · exact g5 j' (by omega) h2

/-- Input refuting claim C2: two consecutive lines whose texts score only
penalties (continuation phrases), both at or below the `-1.0` initial best
score of the search loop. -/
def cexBreakLines : List TranscriptLine :=
  [⟨1, [], 0, ("for example in other words").data⟩,
   ⟨2, [], 5, ("in other words").data⟩]

/-- Claim C2 counterexample: with `min_end = 0 < 1 = max_end < len(lines)`,
the search returns index 0, yet index 1 in the window has a strictly greater
break score (both scores are at most the loop's `-1.0` initialiser, so the
`score > best_score` update never fires and `min_end` is returned even though
it does not attain the window maximum). -/
lemma cexScore0 : scoreAt cexBreakLines 0 = -4 := by
  norm_num +decide [scoreAt, calculate_break_score, cexBreakLines, countPresent,
    countWeakStarts, fillerEndMatch, endsWithCompletion, topicNextBonus, anyPresent,
    strongWords, mediumWords, weakWords, continuationPhrases, fillerEndWords,
    topicBonusWords, endingWords, lowerStr, dfltLine]

lemma cexScore1 : scoreAt cexBreakLines 1 = -2 := by
  norm_num +decide [scoreAt, calculate_break_score, cexBreakLines, countPresent,
    countWeakStarts, fillerEndMatch, endsWithCompletion, topicNextBonus, anyPresent,
    strongWords, mediumWords, weakWords, continuationPhrases, fillerEndWords,
    topicBonusWords, endingWords, lowerStr, dfltLine]

theorem find_best_break_counterexample :
    (0 : Nat) < 1 ∧ cexBreakLines.length = 2
    ∧ find_best_break_in_range cexBreakLines 0 0 1 = 0
    ∧ scoreAt cexBreakLines 0 < scoreAt cexBreakLines 1 := by
  have hval : find_best_break_in_range cexBreakLines 0 0 1 = 0 := by
    rw [find_best_break_in_range]
    refine bestBreakGo_all_le cexBreakLines _ 0 0 (-1) ?_
    intro j h1 h2
    have hj : j = 0 ∨ j = 1 := by omega
    rcases hj with rfl | rfl
    · rw [cexScore0]; norm_num
    · rw [cexScore1]; norm_num
  refine ⟨by decide, rfl, hval, by rw [cexScore0, cexScore1]; norm_num⟩

/-- The amended claim C2's conclusion about the window `[minEnd, maxEnd]`. -/
def bestBreakSpecConcl (lines : List TranscriptLine)
    (startIdx minEnd maxEnd : Nat) : Prop :=
  ((∃ j, minEnd ≤ j ∧ j ≤ maxEnd ∧ -1 < scoreAt lines j) →
     minEnd ≤ find_best_break_in_range lines startIdx minEnd maxEnd
     ∧ find_best_break_in_range lines startIdx minEnd maxEnd ≤ maxEnd
     ∧ (∀ j, minEnd ≤ j → j ≤ maxEnd →
         scoreAt lines j ≤
           scoreAt lines (find_best_break_in_range lines startIdx minEnd maxEnd))
     ∧ (∀ j, minEnd ≤ j → j < find_best_break_in_range lines startIdx minEnd maxEnd →
         scoreAt lines j <
           scoreAt lines (find_best_break_in_range lines startIdx minEnd maxEnd)))
  ∧ ((∀ j, minEnd ≤ j → j ≤ maxEnd → scoreAt lines j ≤ -1) →
     find_best_break_in_range lines startIdx minEnd maxEnd = minEnd)
  ∧ (∀ (cur mn : Nat) (mx : Int), ¬((mn : Int) < mx) →
     chooseEnd lines cur mn mx = min mn (lines.length - 1))

/-- Claim C2 (amended): when `max_end > min_end`, if some candidate in
`[min_end, max_end]` scores above the `-1.0` initial best score then the
chosen end index lies in the window, attains the maximum score there, and is
the earliest maximiser; if every candidate scores at most `-1.0` the search
returns `min_end` regardless of the maximum's position. Otherwise
(`max_end ≤ min_end`) the end index is `min_end` clamped to the last valid
index. -/
theorem find_best_break_spec (lines : List TranscriptLine)
    (startIdx minEnd maxEnd : Nat) (h1 : minEnd < maxEnd)
    (h2 : maxEnd < lines.length) :
    bestBreakSpecConcl lines startIdx minEnd maxEnd := by
  have hmin : min (maxEnd + 1) lines.length = maxEnd + 1 := min_eq_left (by omega)
  have hfuel : minEnd + (min (maxEnd + 1) lines.length - minEnd) = maxEnd + 1 := by
    omega
  refine ⟨?_, ?_, ?_⟩
  · intro hex
    obtain ⟨j, hj1, hj2, hj3⟩ := hex
    obtain ⟨g1, g2, g3, g4, g5⟩ :=
      bestBreakGo_argmax lines (min (maxEnd + 1) lines.length - minEnd) minEnd
        minEnd (-1) ⟨j, hj1, by omega, hj3⟩
    rw [find_best_break_in_range]
    refine ⟨g1, by omega, ?_, ?_⟩
    · intro j' hj1' hj2'
      exact g4 j' hj1' (by omega)
    · intro j' hj1' hj2'
      exact g5 j' hj1' hj2'
  · intro hall
    rw [find_best_break_in_range]
    exact bestBreakGo_all_le lines _ minEnd minEnd (-1)
      (fun j hj1 hj2 => hall j hj1 (by omega))
  · intro cur mn mx hmx
    simp only [chooseEnd, if_neg hmx]

/-- Input for the amended claim C2's witness: the first line's text "so" is a
strong transition and filler ending, scoring well above `-1`. -/
def wBreakLines : List TranscriptLine :=
  [⟨1, [], 0, ("so").data⟩, ⟨2, [], 5, ("zzz").data⟩]

/-- Witness for the amended claim C2 at a concrete window. -/
theorem find_best_break_spec_witness : bestBreakSpecConcl wBreakLines 0 0 1 :=
  find_best_break_spec wBreakLines 0 0 1 (by decide) (by decide)

lemma findIdx2_some_spec (p : Nat → Bool) :
    ∀ (fuel i m : Nat), findIdx2 p i fuel = some m →
      i ≤ m ∧ m < i + fuel ∧ p m = true ∧ ∀ j, i ≤ j → j < m → p j = false := by
  intro fuel
  induction fuel with
  | zero => intro i m h; simp [findIdx2] at h
  | succ fuel ih =>
    intro i m h
    rw [findIdx2] at h
    split at h
    next hp =>
      injection h with h'
      subst h'
      exact ⟨le_rfl, by omega, hp, by intro j h1 h2; omega⟩
    next hp =>
      obtain ⟨g1, g2, g3, g4⟩ := ih (i + 1) m h
      refine ⟨by omega, by omega, g3, ?_⟩
      intro j h1 h2
      rcases eq_or_lt_of_le h1 with rfl | h'
      · simpa using hp
      · exact g4 j (by omega) h2

lemma findIdx2_none_spec (p : Nat → Bool) :
    ∀ (fuel i : Nat), findIdx2 p i fuel = none →
      ∀ j, i ≤ j → j < i + fuel → p j = false := by
  intro fuel
  induction fuel with
  | zero => intro i _ j h1 h2; omega
  | succ fuel ih =>
    intro i h j h1 h2
    rw [findIdx2] at h
    split at h
    · exact absurd h (by simp)
    next hp =>
      rcases eq_or_lt_of_le h1 with rfl | h'
      · simpa using hp
      · exact ih (i + 1) h j (by omega) (by omega)

lemma findMaxEndGo_spec (lines : List TranscriptLine) (s tmax : Int) :
    ∀ (fuel i : Nat) (acc : Int), i + fuel = lines.length → i < lines.length →
      (lines.getD i dfltLine).seconds - s ≤ tmax →
      (i : Int) ≤ findMaxEndGo lines s tmax i acc fuel
      ∧ findMaxEndGo lines s tmax i acc fuel < (lines.length : Int)
      ∧ (∀ j : Nat, i ≤ j → (j : Int) ≤ findMaxEndGo lines s tmax i acc fuel →
          (lines.getD j dfltLine).seconds - s ≤ tmax)
      ∧ (findMaxEndGo lines s tmax i acc fuel + 1 < (lines.length : Int) →
          tmax < (lines.getD (findMaxEndGo lines s tmax i acc fuel + 1).toNat
                    dfltLine).seconds - s) := by
  intro fuel
  induction fuel with
  | zero => intro i acc h1 h2 h3; omega
  | succ fuel ih =>
    intro i acc h1 h2 h3
    rw [findMaxEndGo, if_neg (not_lt.mpr h3)]
    cases fuel with
    | zero =>
      simp only [findMaxEndGo]
      refine ⟨le_rfl, by omega, ?_, ?_⟩
      · intro j hj1 hj2
        have hj : j = i := by omega
        subst hj
        exact h3
      · intro hlt
        omega
    | succ fuel' =>
      have h2' : i + 1 < lines.length := by omega
      by_cases hnext : (lines.getD (i + 1) dfltLine).seconds - s ≤ tmax
      · obtain ⟨g1, g2, g3, g4⟩ := ih (i + 1) (i : Int) (by omega) h2' hnext
        refine ⟨by omega, g2, ?_, g4⟩
        intro j hj1 hj2
        rcases eq_or_lt_of_le hj1 with rfl | h'
        · exact h3
        · exact g3 j (by omega) hj2
      · rw [findMaxEndGo, if_pos (not_le.mp hnext)]
        have hval : ((i + 1 : Nat) : Int) - 1 = (i : Int) := by push_cast; ring
        rw [hval]
        refine ⟨le_rfl, by omega, ?_, ?_⟩
        · intro j hj1 hj2
          have hj : j = i := by omega
          subst hj
          exact h3
        · intro _
          have htn : ((i : Int) + 1).toNat = i + 1 := by omega
          rw [htn]
          exact not_le.mp hnext

/-- The claim C4 conclusion, for a cursor `cur` with start seconds `s`,
minimum boundary `m` and maximum boundary `M`. -/
def boundaryScanConcl (lines : List TranscriptLine) (cur : Nat)
    (tmin tmax s : Int) (m : Nat) (M : Int) : Prop :=
  m < lines.length
  ∧ ((∃ i, cur ≤ i ∧ i < lines.length ∧
        tmin ≤ (lines.getD i dfltLine).seconds - s) →
      cur ≤ m ∧ tmin ≤ (lines.getD m dfltLine).seconds - s ∧
      ∀ j, cur ≤ j → j < m → (lines.getD j dfltLine).seconds - s < tmin)
  ∧ ((∀ i, cur ≤ i → i < lines.length →
        (lines.getD i dfltLine).seconds - s < tmin) →
      m = lines.length - 1)
  ∧ ((lines.getD m dfltLine).seconds - s ≤ tmax →
      (m : Int) ≤ M ∧ M < (lines.length : Int)
      ∧ (∀ j : Nat, m ≤ j → (j : Int) ≤ M →
          (lines.getD j dfltLine).seconds - s ≤ tmax)
      ∧ (M + 1 < (lines.length : Int) →
          tmax < (lines.getD (M + 1).toNat dfltLine).seconds - s))

/-- Claim C4: for a segment starting at cursor `cur`, the minimum boundary is
the first index at or after `cur` whose duration reaches `target_min` (the
last index when none exists), and — whenever the minimum boundary itself
respects `target_max` — the maximum boundary is the largest index such that
every index from the minimum boundary through it has duration at most
`target_max`, backing off one index the moment the bound is exceeded. -/
theorem boundary_scan_spec (lines : List TranscriptLine) (cur : Nat)
    (tmin tmax s : Int) (m : Nat) (M : Int) (hcur : cur < lines.length)
    (hs : s = (lines.getD cur dfltLine).seconds)
    (hm : m = findMinEnd lines cur s tmin)
    (hM : M = findMaxEnd lines s tmax m cur) :
    boundaryScanConcl lines cur tmin tmax s m M := by
  have hcle : cur + (lines.length - cur) = lines.length := by omega
  have hmlen : m < lines.length := by
    rw [hm]
    unfold findMinEnd
    split
    next m' heq =>
      have := findIdx2_some_spec _ _ _ _ heq
      omega
    · omega
  refine ⟨hmlen, ?_, ?_, ?_⟩
  · intro hex
    obtain ⟨i, h1, h2, h3⟩ := hex
    rw [hm]
    unfold findMinEnd
    cases heq : findIdx2
        (fun i => decide (tmin ≤ (lines.getD i dfltLine).seconds - s))
        cur (lines.length - cur) with
    | none =>
      exfalso
      have := findIdx2_none_spec _ _ _ heq i h1 (by omega)
      rw [decide_eq_false_iff_not] at this
      exact this h3
    | some m' =>
      obtain ⟨g1, g2, g3, g4⟩ := findIdx2_some_spec _ _ _ _ heq
      rw [decide_eq_true_eq] at g3
      refine ⟨g1, g3, ?_⟩
      intro j hj1 hj2
      have := g4 j hj1 hj2
      rw [decide_eq_false_iff_not] at this
      omega
  · intro hall
    rw [hm]
    unfold findMinEnd
    cases heq : findIdx2
        (fun i => decide (tmin ≤ (lines.getD i dfltLine).seconds - s))
        cur (lines.length - cur) with
    | none => rfl
    | some m' =>
      obtain ⟨g1, g2, g3, _⟩ := findIdx2_some_spec _ _ _ _ heq
      rw [decide_eq_true_eq] at g3
      have := hall m' g1 (by omega)
      omega
  · intro hmx
    rw [hM]
    unfold findMaxEnd
    exact findMaxEndGo_spec lines s tmax (lines.length - m) m (cur : Int)
      (by omega) hmlen hmx

/-- Lines used by the claim C4 witness: seconds 0, 10, 20. -/
def wBoundaryLines : List TranscriptLine :=
  [⟨1, [], 0, []⟩, ⟨2, [], 10, []⟩, ⟨3, [], 20, []⟩]

/-- Witness for claim C4 at a concrete input: cursor 0, window (9, 18),
minimum boundary 1, maximum boundary 1. -/
theorem boundary_scan_spec_witness : boundaryScanConcl wBoundaryLines 0 9 18 0 1 1 :=
  boundary_scan_spec wBoundaryLines 0 9 18 0 1 1 (by decide) (by decide)
    (by decide) (by decide)

/-- The content-suitability score as the spec's words state it (second
definition for the claim C5 refinement comparison): +2.0 for at least 3
distinct topic keywords, else +1.0 for at least 1; +1.5 for any explanation
pattern; -1.0 for more than 4 distinct strong-transition terms. -/
def specSuitability (t : Str) : ℚ :=
  (if 3 ≤ countPresent topicKeywords t then 2
   else if 1 ≤ countPresent topicKeywords t then 1 else 0)
  + (if anyPresent explanationPhrases t then 3/2 else 0)
  - (if 4 < countPresent strongWords t then 1 else 0)

/-- Claim C5: the long-segment suitability score computed over the candidate
span's concatenated lowercased text equals the spec's formula, and when a
long window was attempted with `max_end > min_end` and the score is below
1.0, the end index is chosen with the maximum boundary recomputed from the
unchanged minimum boundary using the default medium `target_max`
(`max_duration`). -/
theorem long_suitability_spec :
    (∀ (lines : List TranscriptLine) (a b : Nat),
       assess_text_complexity lines a b = specSuitability (spanText lines a b))
    ∧ (∀ (cfg : TranscriptSegmenter) (lines : List TranscriptLine) (cur : Nat)
         (tmin tmax s : Int) (m : Nat) (M0 : Int),
       s = (lines.getD cur dfltLine).seconds →
       m = findMinEnd lines cur s tmin →
       M0 = findMaxEnd lines s tmax m cur →
       (m : Int) < M0 →
       assess_text_complexity lines cur M0.toNat < 1 →
       segEndIdx cfg lines cur true tmin tmax =
         chooseEnd lines cur m (findMaxEnd lines s cfg.max_duration m cur)) := by
  constructor
  · intro lines a b
    rfl
  · intro cfg lines cur tmin tmax s m M0 hs hm hM0 hlt hassess
    subst hs
    subst hm
    subst hM0
    simp only [segEndIdx]
    rw [if_pos ⟨trivial, hlt, hassess⟩]

/-- Lines used by the claim C5 witness: a long window is attempted at cursor
0, the span has no topic content, and the score 0 forces the medium
recomputation. -/
def wSuitLines : List TranscriptLine :=
  [⟨1, [], 0, ("zzz").data⟩, ⟨2, [], 23, ("zzz").data⟩, ⟨3, [], 24, ("zzz").data⟩]

lemma wSuitAssess : assess_text_complexity wSuitLines 0 ((2 : Int)).toNat = 0 := by
  norm_num +decide [assess_text_complexity, spanText, countPresent, anyPresent,
    topicKeywords, explanationPhrases, strongWords, wSuitLines, lowerStr,
    joinSep, dfltLine]

/-- Witness for claim C5 at a concrete long-window attempt. -/
theorem long_suitability_spec_witness :
    segEndIdx cfg0 wSuitLines 0 true 22 30 =
      chooseEnd wSuitLines 0 1 (findMaxEnd wSuitLines 0 cfg0.max_duration 1 0) :=
  long_suitability_spec.2 cfg0 wSuitLines 0 22 30 0 1 2 (by decide) (by decide)
    (by decide) (by decide) (by rw [wSuitAssess]; norm_num)

lemma perm_insertDesc (x : ℚ × Segment) :
    ∀ l : List (ℚ × Segment), (insertDesc x l).Perm (x :: l) := by
  intro l
  induction l with
  | nil => exact List.Perm.refl _
  | cons y ys ih =>
    rw [insertDesc]
    split
    · exact (ih.cons y).trans (List.Perm.swap x y ys)
    · exact List.Perm.refl _

lemma sortScoredDesc_perm :
    ∀ l : List (ℚ × Segment), (sortScoredDesc l).Perm l := by
  intro l
  induction l with
  | nil => exact List.Perm.refl _
  | cons x xs ih =>
    rw [sortScoredDesc]
    exact (perm_insertDesc x (sortScoredDesc xs)).trans (ih.cons x)

lemma mem_insertDesc {a x : ℚ × Segment} {l : List (ℚ × Segment)} :
    a ∈ insertDesc x l ↔ a = x ∨ a ∈ l := by
  rw [(perm_insertDesc x l).mem_iff, List.mem_cons]

lemma pairwise_insertDesc (x : ℚ × Segment) :
    ∀ l : List (ℚ × Segment),
      List.Pairwise (fun a b : ℚ × Segment => b.1 ≤ a.1) l →
      List.Pairwise (fun a b : ℚ × Segment => b.1 ≤ a.1) (insertDesc x l) := by
  intro l
  induction l with
  | nil => intro _; simp [insertDesc]
  | cons y ys ih =>
    intro h
    obtain ⟨hy, hys⟩ := List.pairwise_cons.mp h
    rw [insertDesc]
    split
    next hxy =>
      refine List.pairwise_cons.mpr ⟨?_, ih hys⟩
      intro z hz
      rcases mem_insertDesc.mp hz with rfl | hz'
      · exact le_of_lt hxy
      · exact hy z hz'
    next hxy =>
      refine List.pairwise_cons.mpr ⟨?_, h⟩
      intro z hz
      rcases List.mem_cons.mp hz with rfl | hz'
      · exact not_lt.mp hxy
      · exact le_trans (hy z hz') (not_lt.mp hxy)

lemma sortScoredDesc_pairwise :
    ∀ l : List (ℚ × Segment),
      List.Pairwise (fun a b : ℚ × Segment => b.1 ≤ a.1) (sortScoredDesc l) := by
  intro l
  induction l with
  | nil => simp [sortScoredDesc]
  | cons x xs ih =>
    rw [sortScoredDesc]
    exact pairwise_insertDesc x (sortScoredDesc xs) ih

lemma filter_insertDesc (q : ℚ) (x : ℚ × Segment) :
    ∀ l : List (ℚ × Segment),
      (insertDesc x l).filter (fun p => decide (p.1 = q)) =
        if x.1 = q then x :: l.filter (fun p => decide (p.1 = q))
        else l.filter (fun p => decide (p.1 = q)) := by
  intro l
  induction l with
  | nil =>
    by_cases hx : x.1 = q <;> simp [insertDesc, List.filter_cons, hx]
  | cons y ys ih =>
    rw [insertDesc]
    split
    next hxy =>
      by_cases hy : y.1 = q
      · by_cases hx : x.1 = q
        · exact absurd hxy (by rw [hx, hy]; exact lt_irrefl q)
        · simp [List.filter_cons, hy, hx, ih]
      · simp [List.filter_cons, hy, ih]
    next hxy =>
      by_cases hx : x.1 = q <;> simp [List.filter_cons, hx]

lemma filter_sortScoredDesc (q : ℚ) :
    ∀ l : List (ℚ × Segment),
      (sortScoredDesc l).filter (fun p => decide (p.1 = q)) =
        l.filter (fun p => decide (p.1 = q)) := by
  intro l
  induction l with
  | nil => rfl
  | cons x xs ih =>
    rw [sortScoredDesc, filter_insertDesc]
    by_cases hx : x.1 = q <;> simp [List.filter_cons, hx, ih]

lemma perm_insertStart (x : Segment) :
    ∀ l : List Segment, (insertStart x l).Perm (x :: l) := by
  intro l
  induction l with
  | nil => exact List.Perm.refl _
  | cons y ys ih =>
    rw [insertStart]
    split
    · exact (ih.cons y).trans (List.Perm.swap x y ys)
    · exact List.Perm.refl _

lemma sortByStart_perm : ∀ l : List Segment, (sortByStart l).Perm l := by
  intro l
  induction l with
  | nil => exact List.Perm.refl _
  | cons x xs ih =>
    rw [sortByStart]
    exact (perm_insertStart x (sortByStart xs)).trans (ih.cons x)

lemma mem_sortByStart {a : Segment} {l : List Segment} :
    a ∈ sortByStart l ↔ a ∈ l :=
  (sortByStart_perm l).mem_iff

lemma pairwise_insertStart (x : Segment) :
    ∀ l : List Segment,
      List.Pairwise (fun a b : Segment => a.start_seconds ≤ b.start_seconds) l →
      List.Pairwise (fun a b : Segment => a.start_seconds ≤ b.start_seconds)
        (insertStart x l) := by
  intro l
  induction l with
  | nil => intro _; simp [insertStart]
  | cons y ys ih =>
    intro h
    obtain ⟨hy, hys⟩ := List.pairwise_cons.mp h
    rw [insertStart]
    split
    next hyx =>
      refine List.pairwise_cons.mpr ⟨?_, ih hys⟩
      intro z hz
      rcases List.mem_cons.mp ((perm_insertStart x ys).mem_iff.mp hz) with rfl | hz'
      · exact le_of_lt hyx
      · exact hy z hz'
    next hyx =>
      refine List.pairwise_cons.mpr ⟨?_, h⟩
      intro z hz
      rcases List.mem_cons.mp hz with rfl | hz'
      · exact not_lt.mp hyx
      · exact le_trans (not_lt.mp hyx) (hy z hz')

lemma sortByStart_pairwise :
    ∀ l : List Segment,
      List.Pairwise (fun a b : Segment => a.start_seconds ≤ b.start_seconds)
        (sortByStart l) := by
  intro l
  induction l with
  | nil => simp [sortByStart]
  | cons x xs ih =>
    rw [sortByStart]
    exact pairwise_insertStart x (sortByStart xs) ih

/-- The segments scored and stably sorted by descending importance, shared by
the three tiers of `generate_highlight_reels`. -/
def scoredDesc (segs : List Segment) : List (ℚ × Segment) :=
  sortScoredDesc (segs.map (fun s => (analyze_segment_importance s, s)))

/-- One greedy tier pass as claim C3 literally states it, with admission while
the cumulative admitted duration "has not yet exceeded" the duration cap,
i.e. is at most the cap (second definition, following the claim's words, for
the refutation). -/
def greedyTierLiteral (capN : Nat) (capD : Int) (thr : ℚ) :
    List (ℚ × Segment) → Nat → Int → List Segment
  | [], _, _ => []
  | p :: rest, count, dur =>
    if count < capN ∧ dur ≤ capD ∧ thr < p.1 then
      p.2 :: greedyTierLiteral capN capD thr rest (count + 1) (dur + p.2.duration)
    else greedyTierLiteral capN capD thr rest count dur

/-- One greedy tier pass as the amended claim C3 states it: admit while the
item count is below the cap, the cumulative admitted duration is strictly
below the duration cap, and the score strictly exceeds the threshold (second
definition, following the amended claim's words, for the refinement
comparison). -/
def specGreedyTier (capN : Nat) (capD : Int) (thr : ℚ) :
    List (ℚ × Segment) → Nat → Int → List Segment
  | [], _, _ => []
  | p :: rest, count, dur =>
    if count < capN ∧ dur < capD ∧ thr < p.1 then
      p.2 :: specGreedyTier capN capD thr rest (count + 1) (dur + p.2.duration)
    else specGreedyTier capN capD thr rest count dur

lemma specGreedyTier_eq (capN : Nat) (capD : Int) (thr : ℚ) :
    ∀ (l : List (ℚ × Segment)) (n : Nat) (d : Int),
      specGreedyTier capN capD thr l n d = greedyGo capN capD thr l n d := by
  intro l
  induction l with
  | nil => intro n d; rfl
  | cons p rest ih =>
    intro n d
    by_cases hc : n < capN ∧ d < capD ∧ thr < p.1
    · rw [specGreedyTier, greedyGo, if_pos hc, if_pos hc, ih]
    · rw [specGreedyTier, greedyGo, if_neg hc, if_neg hc, ih]

/-- Segment used by the claim C3 counterexample: importance score exactly 2
(keyword "new"), duration 30, no early-video or duration bonuses. -/
def cexSeg : Segment := ⟨1, 1, [], [], 200, 230, 30, ("new").data⟩

/-- Five copies: the code's quick tier admits four (cumulative duration 120 is
no longer strictly below the 120s cap), the claim's literal reading admits a
fifth (120 has not exceeded 120). -/
def cexSegs : List Segment := [cexSeg, cexSeg, cexSeg, cexSeg, cexSeg]

lemma cexSegImp : analyze_segment_importance cexSeg = 2 := by
  norm_num +decide [analyze_segment_importance, sumWeights, announcementWords,
    techWords, excitementWords, practicalWords, cexSeg, lowerStr]

/-- Claim C3 counterexample: on five identical importance-2, 30-second
segments the quick tier computed by the code has 4 elements while the tier
prescribed by the claim's wording ("cumulative admitted duration has not yet
exceeded its duration cap") has 5, so the claimed equality fails. -/
theorem highlight_duration_cap_counterexample :
    (generate_highlight_reels cexSegs).quick.length = 4
    ∧ (sortByStart (greedyTierLiteral 8 120 1 (scoredDesc cexSegs) 0 0)).length = 5
    ∧ (generate_highlight_reels cexSegs).quick ≠
        sortByStart (greedyTierLiteral 8 120 1 (scoredDesc cexSegs) 0 0) := by
  have h1 : (generate_highlight_reels cexSegs).quick.length = 4 := by
    norm_num +decide [generate_highlight_reels, cexSegs, cexSegImp, List.map,
      sortScoredDesc, insertDesc, greedyGo, sortByStart, insertStart]
  have h2 : (sortByStart (greedyTierLiteral 8 120 1 (scoredDesc cexSegs) 0 0)).length = 5 := by
    norm_num +decide [scoredDesc, cexSegs, cexSegImp, List.map, sortScoredDesc,
      insertDesc, greedyTierLiteral, sortByStart, insertStart]
  refine ⟨h1, h2, ?_⟩
  intro hc
  rw [hc, h2] at h1
  exact absurd h1 (by norm_num)

/-- Claim C3 (amended): each highlight tier equals one greedy pass over the
segments stably sorted by descending importance score — the sorted list is
descending, is a permutation of the scored segments, and preserves the
original relative order of equal scores — admitting a segment exactly when
the item count is below the tier's cap, the cumulative admitted duration is
strictly below the tier's duration cap, and the score strictly exceeds the
tier's threshold (quick 8/120s/1.0, extended 12/180s/0.5, comprehensive
20/240s/0.2), the admitted segments being returned sorted ascending by
`start_seconds`. -/
theorem highlight_reels_spec (segs : List Segment) (q : ℚ) :
    List.Pairwise (fun a b : ℚ × Segment => b.1 ≤ a.1) (scoredDesc segs)
    ∧ (scoredDesc segs).Perm (segs.map (fun s => (analyze_segment_importance s, s)))
    ∧ (scoredDesc segs).filter (fun p => decide (p.1 = q)) =
        (segs.map (fun s => (analyze_segment_importance s, s))).filter
          (fun p => decide (p.1 = q))
    ∧ (generate_highlight_reels segs).quick =
        sortByStart (specGreedyTier 8 120 1 (scoredDesc segs) 0 0)
    ∧ (generate_highlight_reels segs).extended =
        sortByStart (specGreedyTier 12 180 (1/2) (scoredDesc segs) 0 0)
    ∧ (generate_highlight_reels segs).comprehensive =
        sortByStart (specGreedyTier 20 240 (1/5) (scoredDesc segs) 0 0)
    ∧ List.Pairwise (fun a b : Segment => a.start_seconds ≤ b.start_seconds)
        (generate_highlight_reels segs).quick
    ∧ List.Pairwise (fun a b : Segment => a.start_seconds ≤ b.start_seconds)
        (generate_highlight_reels segs).extended
    ∧ List.Pairwise (fun a b : Segment => a.start_seconds ≤ b.start_seconds)
        (generate_highlight_reels segs).comprehensive := by
  refine ⟨sortScoredDesc_pairwise _, sortScoredDesc_perm _, filter_sortScoredDesc _ _,
    ?_, ?_, ?_, ?_, ?_, ?_⟩
  · simp only [generate_highlight_reels, scoredDesc, specGreedyTier_eq]
  · simp only [generate_highlight_reels, scoredDesc, specGreedyTier_eq]
  · simp only [generate_highlight_reels, scoredDesc, specGreedyTier_eq]
  · exact sortByStart_pairwise _
  · exact sortByStart_pairwise _
  · exact sortByStart_pairwise _

lemma greedyGo_dead (capN : Nat) (capD : Int) (thr : ℚ) :
    ∀ (l : List (ℚ × Segment)) (n : Nat) (d : Int),
      (capN ≤ n ∨ capD ≤ d ∨ ∀ p ∈ l, p.1 ≤ thr) →
      greedyGo capN capD thr l n d = [] := by
  intro l
  induction l with
  | nil => intro n d _; rfl
  | cons p rest ih =>
    intro n d h
    have hrej : ¬(n < capN ∧ d < capD ∧ thr < p.1) := by
      rcases h with h | h | h
      · exact fun hc => absurd hc.1 (by omega)
      · exact fun hc => absurd hc.2.1 (by omega)
      · exact fun hc => absurd hc.2.2 (not_lt.mpr (h p (List.mem_cons_self p rest)))
    have htail : capN ≤ n ∨ capD ≤ d ∨ ∀ z ∈ rest, z.1 ≤ thr := by
      rcases h with h | h | h
      · exact Or.inl h
      · exact Or.inr (Or.inl h)
      · exact Or.inr (Or.inr fun z hz => h z (List.mem_cons_of_mem p hz))
    rw [greedyGo, if_neg hrej]
    exact ih n d htail

lemma greedyGo_mono (c1 c2 : Nat) (D1 D2 : Int) (t1 t2 : ℚ)
    (hc : c1 ≤ c2) (hD : D1 ≤ D2) (ht : t2 ≤ t1) :
    ∀ (l : List (ℚ × Segment)),
      List.Pairwise (fun a b : ℚ × Segment => b.1 ≤ a.1) l →
      ∀ (n : Nat) (d : Int) (s : Segment),
        s ∈ greedyGo c1 D1 t1 l n d → s ∈ greedyGo c2 D2 t2 l n d := by
  intro l
  induction l with
  | nil => intro _ n d s hs; simp [greedyGo] at hs
  | cons p rest ih =>
    intro hp n d s hs
    obtain ⟨hhead, htail⟩ := List.pairwise_cons.mp hp
    by_cases ha : n < c1 ∧ d < D1 ∧ t1 < p.1
    · rw [greedyGo, if_pos ha] at hs
      have ha2 : n < c2 ∧ d < D2 ∧ t2 < p.1 :=
        ⟨by omega, by omega, lt_of_le_of_lt ht ha.2.2⟩
      rw [greedyGo, if_pos ha2]
      rcases List.mem_cons.mp hs with rfl | hs'
      · exact List.mem_cons_self _ _
      · exact List.mem_cons_of_mem _ (ih htail (n + 1) (d + p.2.duration) s hs')
    · rw [greedyGo, if_neg ha] at hs
      have hdead : greedyGo c1 D1 t1 rest n d = [] := by
        apply greedyGo_dead
        by_cases h1 : n < c1
        · by_cases h2 : d < D1
          · refine Or.inr (Or.inr ?_)
            intro z hz
            have hpt : ¬ t1 < p.1 := fun hlt => ha ⟨h1, h2, hlt⟩
            exact le_trans (hhead z hz) (not_lt.mp hpt)
          · exact Or.inr (Or.inl (by omega))
        · exact Or.inl (by omega)
      rw [hdead] at hs
      simp at hs

/-- Claim C9: the highlight tiers are nested — every segment selected into
the quick tier is also in the extended tier, and every segment in the
extended tier is also in the comprehensive tier (the greedy passes share the
descending-score order, and the quick caps and threshold are all at least as
strict as the extended ones, which are at least as strict as the
comprehensive ones). -/
theorem highlight_tiers_nested (segs : List Segment) (s : Segment) :
    (s ∈ (generate_highlight_reels segs).quick →
       s ∈ (generate_highlight_reels segs).extended)
    ∧ (s ∈ (generate_highlight_reels segs).extended →
       s ∈ (generate_highlight_reels segs).comprehensive) := by
  have hp := sortScoredDesc_pairwise
    (segs.map (fun s => (analyze_segment_importance s, s)))
  constructor
  · intro hs
    simp only [generate_highlight_reels] at hs ⊢
    rw [mem_sortByStart] at hs ⊢
    exact greedyGo_mono 8 12 120 180 1 (1/2) (by omega) (by omega) (by norm_num)
      _ hp 0 0 s hs
  · intro hs
    simp only [generate_highlight_reels] at hs ⊢
    rw [mem_sortByStart] at hs ⊢
    exact greedyGo_mono 12 20 180 240 (1/2) (1/5) (by omega) (by omega)
      (by norm_num) _ hp 0 0 s hs

/-- Segment used by the claim C9 witness: importance 7/2 clears every tier. -/
def wNestSeg : Segment := ⟨1, 1, [], [], 0, 15, 15, ("new").data⟩

lemma wNestImp : analyze_segment_importance wNestSeg = 7/2 := by
  norm_num +decide [analyze_segment_importance, sumWeights, announcementWords,
    techWords, excitementWords, practicalWords, wNestSeg, lowerStr]

lemma wNestReels :
    generate_highlight_reels [wNestSeg] = ⟨[wNestSeg], [wNestSeg], [wNestSeg]⟩ := by
  norm_num +decide [generate_highlight_reels, List.map, wNestImp, sortScoredDesc,
    insertDesc, greedyGo, sortByStart, insertStart]

/-- Witness for claim C9 at a concrete input admitted into the quick tier. -/
theorem highlight_tiers_nested_witness :
    wNestSeg ∈ (generate_highlight_reels [wNestSeg]).extended
    ∧ wNestSeg ∈ (generate_highlight_reels [wNestSeg]).comprehensive :=
  ⟨(highlight_tiers_nested [wNestSeg] wNestSeg).1 (by rw [wNestReels]; simp),
   (highlight_tiers_nested [wNestSeg] wNestSeg).2 (by rw [wNestReels]; simp)⟩

/-- The segment list `l` covers the index interval `[cur, len)` of a line
sequence whose `line_number`s are sequential from 1: each segment spans
`[cur, e]` for some `e < len` and the next segment resumes at `e + 1`,
until the interval is exhausted. -/
inductive Covers (len : Nat) : Nat → List Segment → Prop where
  | nil : Covers len len []
  | cons (cur e : Nat) (s : Segment) (t : List Segment) (h1 : cur ≤ e)
      (h2 : e < len) (h3 : s.start_line = cur + 1) (h4 : s.end_line = e + 1)
      (h5 : Covers len (e + 1) t) : Covers len cur (s :: t)

lemma covers_nil_eq {len cur : Nat} (h : Covers len cur []) : cur = len := by
  cases h
  rfl

lemma covers_ne_nil {len cur : Nat} {l : List Segment} (h : Covers len cur l)
    (hc : cur < len) : l ≠ [] := by
  intro hl
  subst hl
  have := covers_nil_eq h
  omega

lemma covers_head_start {len cur : Nat} {s : Segment} {t : List Segment}
    (h : Covers len cur (s :: t)) : s.start_line = cur + 1 := by
  cases h
  assumption

lemma covers_chain {len cur : Nat} {l : List Segment} (h : Covers len cur l) :
    ∀ i, i + 1 < l.length →
      (l.getD i dfltSeg).end_line + 1 = (l.getD (i + 1) dfltSeg).start_line := by
  induction h with
  | nil => intro i hi; simp at hi
  | cons cur e s t h1 h2 h3 h4 h5 ih =>
    intro i hi
    cases i with
    | zero =>
      cases t with
      | nil => simp at hi
      | cons s' t' =>
        have hs' : s'.start_line = (e + 1) + 1 := covers_head_start h5
        simp only [List.getD_cons_zero, List.getD_cons_succ]
        rw [h4, hs']
    | succ i' =>
      have := ih i' (by simpa using hi)
      simpa using this

lemma covers_last {len cur : Nat} {l : List Segment} (h : Covers len cur l) :
    l ≠ [] → (l.getLastD dfltSeg).end_line = len := by
  induction h with
  | nil => intro hne; exact absurd rfl hne
  | cons cur e s t h1 h2 h3 h4 h5 ih =>
    intro _
    cases t with
    | nil =>
      have hl : e + 1 = len := covers_nil_eq h5
      rw [List.getLastD_cons, List.getLastD_nil, h4, hl]
    | cons s' t' =>
      have h' := ih (List.cons_ne_nil s' t')
      rw [List.getLastD_cons, List.getLastD_cons]
      rw [List.getLastD_cons] at h'
      exact h'

lemma getLastD_eq_getD {α : Type _} (d : α) :
    ∀ (l : List α), l ≠ [] → l.getLastD d = l.getD (l.length - 1) d := by
  intro l
  induction l with
  | nil => intro h; exact absurd rfl h
  | cons a t ih =>
    intro _
    cases t with
    | nil => rfl
    | cons b bs =>
      rw [List.getLastD_cons]
      have hind : (b :: bs).getLastD a = (b :: bs).getLastD d := by
        rw [List.getLastD_cons, List.getLastD_cons]
      rw [hind, ih (List.cons_ne_nil b bs)]
      have hlen : (a :: b :: bs : List α).length - 1 = bs.length + 1 := by simp
      rw [hlen]
      simp [List.getD_cons_succ]

lemma covers_start_le_end {len cur : Nat} {l : List Segment}
    (h : Covers len cur l) : ∀ s ∈ l, s.start_line ≤ s.end_line := by
  induction h with
  | nil => intro s hs; simp at hs
  | cons cur e s t h1 h2 h3 h4 h5 ih =>
    intro z hz
    rcases List.mem_cons.mp hz with rfl | hz'
    · rw [h3, h4]; omega
    · exact ih z hz'

lemma go_covers (cfg : TranscriptSegmenter) (lines : List TranscriptLine)
    (hNum : ∀ i, i < lines.length → (lines.getD i dfltLine).line_number = i + 1) :
    ∀ (k cur : Nat) (acc : List Segment) (r : Rng),
      lines.length - cur ≤ k → cur ≤ lines.length →
      ∃ rest, createSegmentsGo cfg lines cur acc r = acc ++ rest ∧
        Covers lines.length cur rest := by
  intro k
  induction k with
  | zero =>
    intro cur acc r hk hle
    have hcur : ¬ cur < lines.length := by omega
    refine ⟨[], ?_, ?_⟩
    · rw [createSegmentsGo, dif_neg hcur, List.append_nil]
    · have hc : cur = lines.length := by omega
      subst hc
      exact Covers.nil
  | succ k ih =>
    intro cur acc r hk hle
    by_cases hcur : cur < lines.length
    · rw [createSegmentsGo, dif_pos hcur]
      have he1 : cur ≤ (stepOf cfg lines cur acc r).1 :=
        stepOf_fst_ge cfg lines cur acc r hcur
      have he2 : (stepOf cfg lines cur acc r).1 ≤ lines.length - 1 :=
        stepOf_fst_le cfg lines cur acc r
      obtain ⟨rest, hrest, hcov⟩ :=
        ih ((stepOf cfg lines cur acc r).1 + 1)
          (acc ++ [mkSeg lines cur (stepOf cfg lines cur acc r).1])
          (stepOf cfg lines cur acc r).2 (by omega) (by omega)
      refine ⟨mkSeg lines cur (stepOf cfg lines cur acc r).1 :: rest, ?_, ?_⟩
      · rw [hrest]
        simp
      · refine Covers.cons cur (stepOf cfg lines cur acc r).1 _ rest he1
          (by omega) ?_ ?_ hcov
        · simp only [mkSeg]
          exact hNum cur hcur
        · simp only [mkSeg]
          exact hNum (stepOf cfg lines cur acc r).1 (by omega)
    · refine ⟨[], ?_, ?_⟩
      · rw [createSegmentsGo, dif_neg hcur, List.append_nil]
      · have hc : cur = lines.length := by omega
        subst hc
        exact Covers.nil

/-- Claim C1: for a non-empty line sequence with `line_number`s sequential
from 1, the segments returned by `create_segments` are a strict partition of
the lines — the first segment starts at the first line number, consecutive
segments are contiguous (`end_line + 1` is the next `start_line`), the last
segment ends at the last line number, and no segment is empty — for every
configuration and random stream. -/
theorem create_segments_partition (cfg : TranscriptSegmenter)
    (lines : List TranscriptLine) (r : Rng) (hne : lines ≠ [])
    (hNum : ∀ i, i < lines.length → (lines.getD i dfltLine).line_number = i + 1) :
    create_segments cfg lines r ≠ []
    ∧ ((create_segments cfg lines r).headD dfltSeg).start_line =
        (lines.headD dfltLine).line_number
    ∧ (∀ i, i + 1 < (create_segments cfg lines r).length →
        ((create_segments cfg lines r).getD i dfltSeg).end_line + 1 =
          ((create_segments cfg lines r).getD (i + 1) dfltSeg).start_line)
    ∧ ((create_segments cfg lines r).getLastD dfltSeg).end_line =
        (lines.getLastD dfltLine).line_number
    ∧ (∀ s ∈ create_segments cfg lines r, s.start_line ≤ s.end_line) := by
  have hlen : 0 < lines.length := List.length_pos.mpr hne
  obtain ⟨rest, hrest, hcov⟩ :=
    go_covers cfg lines hNum lines.length 0 [] r (by omega) (by omega)
  have hsegs : create_segments cfg lines r = rest := by
    rw [create_segments, hrest, List.nil_append]
  rw [hsegs]
  have hne' : rest ≠ [] := covers_ne_nil hcov hlen
  refine ⟨hne', ?_, covers_chain hcov, ?_, covers_start_le_end hcov⟩
  · have hl : (lines.headD dfltLine).line_number = 1 := by
      cases lines with
      | nil => exact absurd rfl hne
      | cons a as => simpa using hNum 0 hlen
    cases rest with
    | nil => exact absurd rfl hne'
    | cons s t =>
      have h0 : s.start_line = 0 + 1 := covers_head_start hcov
      rw [List.headD_cons, h0, hl]
  · have h1 := covers_last hcov hne'
    have h2 : (lines.getLastD dfltLine).line_number = lines.length := by
      rw [getLastD_eq_getD dfltLine lines hne,
        hNum (lines.length - 1) (by omega)]
      omega
    rw [h1, h2]

/-- Lines used by the claim C1 witness. -/
def wPartLines : List TranscriptLine :=
  [⟨1, [], 0, []⟩, ⟨2, [], 12, []⟩, ⟨3, [], 25, []⟩]

/-- Witness for claim C1 at a concrete input. -/
theorem create_segments_partition_witness :
    create_segments cfg0 wPartLines ⟨fun _ => 0, 0⟩ ≠ []
    ∧ ((create_segments cfg0 wPartLines ⟨fun _ => 0, 0⟩).headD dfltSeg).start_line =
        (wPartLines.headD dfltLine).line_number
    ∧ (∀ i, i + 1 < (create_segments cfg0 wPartLines ⟨fun _ => 0, 0⟩).length →
        ((create_segments cfg0 wPartLines ⟨fun _ => 0, 0⟩).getD i dfltSeg).end_line + 1 =
          ((create_segments cfg0 wPartLines ⟨fun _ => 0, 0⟩).getD (i + 1) dfltSeg).start_line)
    ∧ ((create_segments cfg0 wPartLines ⟨fun _ => 0, 0⟩).getLastD dfltSeg).end_line =
        (wPartLines.getLastD dfltLine).line_number
    ∧ (∀ s ∈ create_segments cfg0 wPartLines ⟨fun _ => 0, 0⟩,
        s.start_line ≤ s.end_line) :=
  create_segments_partition cfg0 wPartLines ⟨fun _ => 0, 0⟩ (by decide) (by decide)

end Cutlass
